import Mathlib

/-!
Verification development for the ACME certificate-management module
(`pkg/acme/acme.go`) and the Hetzner provider's corrections builder of the
dnscontrol repository.

The Go code is shallowly embedded as pure Lean functions.  Stateful code is
modelled by explicit state passing; calls into external collaborators
(certificate storage, the lego ACME client, the reconciliation engine, the
notifier) are modelled as oracle inputs packaged in environment records, and
observable side effects (Obtain/Renew calls, executed corrections, cleanup
logging) are recorded in an event trace.  Go `float64` day arithmetic is
modelled with exact rationals, Go machine integers with `Int` (the involved
quantities — nanosecond durations and day counts — are far from any overflow
boundary on `int64`, and the source performs no wrap-around arithmetic).
-/

/-! ## Events and corrections

A `Correction` is the collaborator-produced unit of work consumed by
`getAndRunCorrections` in acme.go: a message, plus the outcome of executing
its action `F()` and the outcome of the notifier call, both supplied as data
since the actions are opaque to the core. -/

/-- Observable effects of a run: an `Obtain` call with the domain list read
from the request at call time, a `Renew` call, execution of one correction,
and the per-zone error logging performed by `finalCleanUp`. -/
inductive Event where
  | obtain (names : List String) (mustStaple : Bool)
  | renew
  | runCorrection (msg : String)
  | logCleanupError (msg : String)
deriving DecidableEq, Repr

/-- A correction as consumed by acme.go: description, result of executing its
action, and result of notifying about it (oracle data for the opaque calls). -/
structure Correction where
  msg : String
  runErr : Option String
  notifyErr : Option String
deriving DecidableEq, Repr

/-- The correction-running loop of `certManager.getAndRunCorrections`
(acme.go:298-308): execute each correction in order, notify, and abort on the
first error from either the correction or the notifier. -/
def runCorrections : List Correction → List Event × Option String
  | [] => ([], none)
  | c :: rest =>
    match c.runErr with
    | some e => ([Event.runCorrection c.msg], some e)
    | none =>
      match c.notifyErr with
      | some e2 => ([Event.runCorrection c.msg], some e2)
      | none =>
        let r := runCorrections rest
        (Event.runCorrection c.msg :: r.1, r.2)

/-- `certManager.getAndRunCorrections` (acme.go:292-310), with the zone's
`getCorrections` result supplied as data: propagate a correction-computation
error, otherwise run the corrections. -/
def getAndRunCorrections (g : Except String (List Correction)) :
    List Event × Option String :=
  match g with
  | .error e => ([], some e)
  | .ok cs => runCorrections cs

/-- Loop body accumulator form of `certManager.finalCleanUp` (acme.go:317-327):
`lastError` is overwritten on each failing zone, failures are logged, and every
zone is attempted. -/
def finalCleanUpAux (acc : List Event × Option String) :
    List (Except String (List Correction)) → List Event × Option String
  | [] => acc
  | z :: zs =>
    let r := getAndRunCorrections z
    match r.2 with
    | some e => finalCleanUpAux (acc.1 ++ r.1 ++ [Event.logCleanupError e], some e) zs
    | none => finalCleanUpAux (acc.1 ++ r.1, acc.2) zs

/-- `certManager.finalCleanUp` (acme.go:317-327): run corrections for every
recorded original domain in order, log and remember the last error, return it. -/
def finalCleanUp (zones : List (Except String (List Correction))) :
    List Event × Option String :=
  finalCleanUpAux ([], none) zones

/-! ## Certificate data and the issuance decision logic -/

/-- `CertConfig` (acme.go:29-34). -/
structure CertConfig where
  certName : String
  names : List String
  useECC : Bool
  mustStaple : Bool
deriving DecidableEq, Repr

/-- Outcome of `pem.Decode` + `x509.ParseCertificate` on the stored bytes, as
consumed by `getCertInfo` (acme.go:177-188): decode failure, parse failure, or
a parsed certificate exposing its DNS names and `NotAfter` (nanoseconds). -/
inductive PemData where
  | invalid
  | parseError (e : String)
  | parsed (names : List String) (notAfter : Int)
deriving DecidableEq, Repr

/-- Nanoseconds in `time.Hour * 24`. -/
def nsPerDay : ℚ := 86400000000000

/-- `getCertInfo` (acme.go:177-188): `daysLeft` is
`float64(time.Until(cert.NotAfter)) / float64(time.Hour*24)`, modelled here as
the exact rational quotient with the current wall clock `now`.  This is an
idealisation: the Go expression converts the `int64` duration to `float64` and
performs a `float64` division, each correctly rounded.  The bit-accurate
semantics of that line is `daysLeftFloat` below; the rounding is monotone, so
hypotheses stated with the exact quotient are preserved. -/
def getCertInfo (now : Int) : PemData → Except String (List String × ℚ)
  | .invalid => .error "invalid certificate PEM data"
  | .parseError e => .error e
  | .parsed names notAfter => .ok (names, ((notAfter - now : ℤ) : ℚ) / nsPerDay)

/-- Round-to-nearest, ties-to-even, of the quotient `a / b` (for `b ≠ 0`): the
integer significand selection step of IEEE-754 binary64 arithmetic. -/
def rnte (a b : ℕ) : ℕ :=
  let q := a / b
  let r := a % b
  if 2 * r < b then q
  else if b < 2 * r then q + 1
  else if q % 2 = 0 then q else q + 1

/-- Binade exponent of the positive rational `p / q`: the unique `e` with
`2 ^ e ≤ p / q < 2 ^ (e + 1)`, computed from the two integer logarithms. -/
def binadePos (p q : ℕ) : ℤ :=
  let d : ℤ := (Nat.log2 p : ℤ) - (Nat.log2 q : ℤ)
  if q * 2 ^ d.toNat ≤ p * 2 ^ (-d).toNat then d else d - 1

/-- IEEE-754 binary64 rounding (round-to-nearest, ties-to-even) of the
positive rational `p / q`: the significand is the correctly rounded value of
`p / q` scaled into `[2 ^ 52, 2 ^ 53]`, then scaled back.  Valid in the normal
finite range, which covers every quantity in `getCertInfo`. -/
def roundFloatPos (p q : ℕ) : ℚ :=
  if p = 0 then 0
  else
    let k := binadePos p q - 52
    if 0 ≤ k then (rnte p (q * 2 ^ k.toNat) : ℚ) * 2 ^ k.toNat
    else (rnte (p * 2 ^ (-k).toNat) q : ℚ) / 2 ^ (-k).toNat

/-- IEEE-754 binary64 rounding of a rational, extended to all signs. -/
def roundFloat (x : ℚ) : ℚ :=
  if x < 0 then - roundFloatPos (-x).num.toNat (-x).den
  else roundFloatPos x.num.toNat x.den

/-- Go's `int64` → `float64` conversion (`float64(time.Until(cert.NotAfter))`
and `float64(renewUnder)`): correctly rounded to binary64. -/
def floatOfInt (n : ℤ) : ℚ := roundFloat (n : ℚ)

/-- `daysLeft` of acme.go:186 under bit-accurate binary64 semantics: the
`int64` nanosecond duration is converted to `float64`, then divided by
`float64(time.Hour*24) = 86400000000000` (exact in binary64), with the
division correctly rounded. -/
def daysLeftFloat (now notAfter : ℤ) : ℚ :=
  roundFloat (floatOfInt (notAfter - now) / 86400000000000)

/-- Go's `sort.Strings`: ascending lexicographic sort.  The result of any
correct sort is the unique `≤`-sorted permutation of the input, so insertion
sort is extensionally the same function. -/
def sortStrings (l : List String) : List String :=
  List.insertionSort (fun a b => a ≤ b) l

/-- `dnsNamesEqual` (acme.go:191-203).  The Go function sorts both slices *in
place* before the elementwise comparison; the mutation is surfaced by returning
the two lists as the function leaves them alongside the boolean result. -/
def dnsNamesEqual (a b : List String) : Bool × List String × List String :=
  if a.length ≠ b.length then (false, a, b)
  else
    let a' := sortStrings a
    let b' := sortStrings b
    (a' == b', a', b')

/-- Opaque issued-certificate artifact (`certificate.Resource`). -/
structure CertResource where
  id : Nat
deriving DecidableEq, Repr

/-- Oracle environment for one `IssueOrRenewCert` call: outcomes of every call
into an external collaborator, plus the per-zone `getCorrections` outcomes that
the deferred `finalCleanUp` will see for the zones recorded in
`c.originalDomains` at cleanup time. -/
structure IssueEnv where
  getCertificate : Except String (Option PemData)
  now : Int
  newClientErr : Option String
  obtainResult : Except String CertResource
  renewResult : Except String CertResource
  storeCertErr : Option String
  cleanupZones : List (Except String (List Correction))

/-- The two actions the decision logic can select (acme.go:118-147). -/
inductive ActionKind where
  | obtainAction
  | renewAction
deriving DecidableEq, Repr

/-- Result of one `IssueOrRenewCert` call: the event trace, the `CertConfig`
as the call leaves it (its `Names` slice may have been sorted in place), and
the `(bool, error)` return value. -/
structure IssueResult where
  events : List Event
  cfgAfter : CertConfig
  changed : Bool
  err : Option String
deriving DecidableEq, Repr

/-- Client construction and the selected action + persistence
(acme.go:150-174).  The `Obtain` closure reads `cfg.Names` at call time, hence
the event records the names as they stand when the action runs. -/
def issueAction (env : IssueEnv) (cfg : CertConfig) (k : ActionKind) : IssueResult :=
  match env.newClientErr with
  | some e => ⟨[], cfg, false, some e⟩
  | none =>
    let ev := match k with
      | .obtainAction => Event.obtain cfg.names cfg.mustStaple
      | .renewAction => Event.renew
    let res := match k with
      | .obtainAction => env.obtainResult
      | .renewAction => env.renewResult
    match res with
    | .error e => ⟨[ev], cfg, false, some e⟩
    | .ok _ =>
      match env.storeCertErr with
      | some e => ⟨[ev], cfg, true, some e⟩
      | none => ⟨[ev], cfg, true, none⟩

/-- Body of `IssueOrRenewCert` (acme.go:104-175) up to but excluding the
deferred `finalCleanUp`: storage lookup, decision between no-op / renew /
reissue, then the selected action. -/
def issueCore (env : IssueEnv) (cfg : CertConfig) (renewUnder : Int) : IssueResult :=
  match env.getCertificate with
  | .error e => ⟨[], cfg, false, some e⟩
  | .ok none => issueAction env cfg .obtainAction
  | .ok (some pemData) =>
    match getCertInfo env.now pemData with
    | .error e => ⟨[], cfg, false, some e⟩
    | .ok (names, daysLeft) =>
      let r := dnsNamesEqual cfg.names names
      let cfg' := { cfg with names := r.2.1 }
      if (renewUnder : ℚ) ≤ daysLeft ∧ r.1 = true then
        ⟨[], cfg', false, none⟩
      else if r.1 = false then
        issueAction env cfg' .obtainAction
      else
        issueAction env cfg' .renewAction

/-- `certManager.IssueOrRenewCert` (acme.go:104-175).  The `defer
c.finalCleanUp()` registered at entry runs after the return values are
computed and before control returns; its error is discarded
(`//nolint:errcheck`), so only its events are appended to the trace. -/
def IssueOrRenewCert (env : IssueEnv) (cfg : CertConfig) (renewUnder : Int) :
    IssueResult :=
  let core := issueCore env cfg renewUnder
  { core with events := core.events ++ (finalCleanUp env.cleanupZones).1 }

/-! ## The Challenge Coordinator: `Present` and its state -/

/-- A DNS record as far as the core inspects it (`models.RecordConfig`):
type, label, target. -/
structure RecordConfig where
  rtype : String
  label : String
  target : String
deriving DecidableEq, Repr

/-- A zone's desired configuration as far as the core inspects it
(`models.DomainConfig`): zone name, nameserver set, record set, and the names
of its attached DNS provider instances. -/
structure DomainConfig where
  name : String
  nameservers : List String
  records : List RecordConfig
  providerNames : List String
deriving DecidableEq, Repr

/-- Oracle environment for the Coordinator: outcomes of every call into code
outside `pkg/acme`.  `resolveZone` is the name-resolution step of
`cfg.DomainContainingFQDN`; `determineNS` is
`nameservers.DetermineNameservers`; `challengeRecord` is `dns01.GetRecord`
(fqdn and TXT value derived from the domain and key authorization);
`makeLabel` is `RecordConfig.SetLabelFromFQDN`; `reconcile p d` is
`zonerecs.CorrectZoneRecords` for provider instance `p`, yielding the
executable corrections (the informational reports it also returns are
relabelled and dropped by `getCorrections`, so they are not modelled). -/
structure PresentEnv where
  resolveZone : String → String
  determineNS : DomainConfig → Except String (List String)
  challengeRecord : String → String → String × String
  makeLabel : String → String → String
  reconcile : String → DomainConfig → Except String (List Correction)
  ignoredProviders : List String

/-- Modelled from the spec: `nameservers.AddNSRecords` (pkg/nameservers, not
under src/) — §4.2a "inject any missing NS records required for correct
delegation": append an apex NS record for each determined nameserver that the
configuration does not already carry. -/
def addNSRecords (d : DomainConfig) : DomainConfig :=
  let nsRec : String → RecordConfig := fun ns => ⟨"NS", "@", ns⟩
  let missing := d.nameservers.filter (fun ns => ! d.records.contains (nsRec ns))
  { d with records := d.records ++ missing.map nsRec }

/-- `strings.TrimSpace`: drop leading and trailing whitespace.  (Go trims by
Unicode White_Space; the code points that can appear here are ASCII, on which
`Char.isWhitespace` agrees.) -/
def trimSpace (s : String) : String :=
  ⟨((s.data.dropWhile Char.isWhitespace).reverse.dropWhile Char.isWhitespace).reverse⟩

/-- Message wrapping applied to each correction in
`certManager.getCorrections` (acme.go:284-286). -/
def wrapMsg (p : String) (c : Correction) : Correction :=
  { c with msg := "[" ++ p ++ "] " ++ trimSpace c.msg }

/-- Provider loop of `certManager.getCorrections` (acme.go:267-290): skip
ignored providers, reconcile against a copy of the configuration (pure model:
the value itself), abort on a reconciliation error, and concatenate the
relabelled corrections of every provider in order. -/
def getCorrectionsAux (env : PresentEnv) (d : DomainConfig) :
    List String → Except String (List Correction)
  | [] => .ok []
  | p :: ps =>
    if p ∈ env.ignoredProviders then getCorrectionsAux env d ps
    else
      match env.reconcile p d with
      | .error e => .error e
      | .ok corrs =>
        match getCorrectionsAux env d ps with
        | .error e => .error e
        | .ok rest => .ok (corrs.map (wrapMsg p) ++ rest)

/-- `certManager.getCorrections` (acme.go:267-290). -/
def getCorrections (env : PresentEnv) (d : DomainConfig) :
    Except String (List Correction) :=
  getCorrectionsAux env d d.providerNames

/-- `certManager.ensureNoPendingCorrections` (acme.go:249-262): `some` error
when reconciliation fails or reports pending corrections, `none` otherwise. -/
def ensureNoPendingCorrections (env : PresentEnv) (d : DomainConfig) :
    Option String :=
  match getCorrections env d with
  | .error e => some e
  | .ok corrections =>
    if corrections.length ≠ 0 then
      some ("found " ++ toString corrections.length ++ " pending corrections for "
        ++ d.name ++ ". Not going to proceed issuing certificates")
    else none

/-- The mutable fields of `certManager` that `Present`/`finalCleanUp` touch:
the caller-supplied configurations (`c.cfg.Domains`, the originals, mutated in
place through pointers in Go), the working-copy map `c.domains`, and
`c.originalDomains`, which in Go holds pointers into `c.cfg.Domains` and is
modelled by the zone names of those originals. -/
structure CMState where
  cfg : List DomainConfig
  domains : List (String × DomainConfig)
  originalDomains : List String
deriving DecidableEq, Repr

/-- In-place update (through a pointer, in Go) of the configuration named `k`
in the caller-supplied configuration list. -/
def updateCfg (cfg : List DomainConfig) (k : String) (v : DomainConfig) :
    List DomainConfig :=
  cfg.map (fun dc => if dc.name == k then v else dc)

/-- In-place update of the working copy stored under key `k`. -/
def updateAssoc (m : List (String × DomainConfig)) (k : String) (v : DomainConfig) :
    List (String × DomainConfig) :=
  m.map (fun p => if p.1 == k then (k, v) else p)

/-- Common tail of `Present` (acme.go:239-246): build the DNS-01 TXT record,
append it to the working copy `d` (an in-place mutation of the map entry, via
the pointer in Go), and run the resulting corrections.  `SetTargetTXT` only
fails for record types this call never constructs, so it is modelled as
infallible. -/
def presentTail (env : PresentEnv) (st : CMState) (d : DomainConfig)
    (domain keyAuth : String) : CMState × List Event × Option String :=
  let fv := env.challengeRecord domain keyAuth
  let txt : RecordConfig := ⟨"TXT", env.makeLabel fv.1 d.name, fv.2⟩
  let d' := { d with records := d.records ++ [txt] }
  let st' := { st with domains := updateAssoc st.domains d.name d' }
  let r := getAndRunCorrections (getCorrections env d')
  (st', r.1, r.2)

/-- `certManager.Present` (acme.go:205-247).  The unused `token` parameter is
omitted.  `d.Copy()` is a JSON round-trip in Go whose failure path is
unreachable for well-formed configurations; the copy is modelled as the value
itself (deep copy is the identity on pure values). -/
def Present (env : PresentEnv) (st : CMState) (domain keyAuth : String) :
    CMState × List Event × Option String :=
  let zone := env.resolveZone domain
  match st.cfg.find? (fun dc => dc.name == zone) with
  | none => (st, [], some "no domain found")
  | some d =>
    match st.domains.lookup d.name with
    | some seen => presentTail env st seen domain keyAuth
    | none =>
      match env.determineNS d with
      | .error e => (st, [], some e)
      | .ok nsList =>
        let d1 := addNSRecords { d with nameservers := nsList }
        let st1 := { st with cfg := updateCfg st.cfg d.name d1 }
        match ensureNoPendingCorrections env d1 with
        | some e => (st1, [], some e)
        | none =>
          let cpy := d1
          let st2 := { st1 with
            originalDomains := st1.originalDomains ++ [d1.name],
            domains := st1.domains ++ [(d1.name, cpy)] }
          presentTail env st2 cpy domain keyAuth

/-- A sequence of `Present` calls starting from a freshly constructed manager
(`commonNew`, acme.go:74-82: empty working-copy map, no recorded originals)
over the caller-supplied configurations `cfg0`. -/
def runPresents (env : PresentEnv) (cfg0 : List DomainConfig)
    (calls : List (String × String)) : CMState :=
  calls.foldl (fun st c => (Present env st c.1 c.2).1) ⟨cfg0, [], []⟩

/-! ## The Hetzner provider's corrections builder -/

/-- The provider-native `record` struct as far as the corrections builder
inspects it. -/
structure HRecord where
  hid : String
  hname : String
  htype : String
  hvalue : String
deriving DecidableEq, Repr

/-- One entry of the incremental diff consumed by
`GetZoneRecordsCorrections`: its description (`m.String()`), the existing
provider record (`m.Existing.Original.(*record)`) and the desired record
already converted by `fromRecordConfig` (a leaf converter outside the
reviewed part of the provider source). -/
structure DiffPair where
  desc : String
  existing : HRecord
  desired : HRecord
deriving DecidableEq, Repr

/-- What a Hetzner correction's closure `F` does: nothing (a report-only
message correction), delete one record, bulk-create, or bulk-update. -/
inductive HCorrAction where
  | message
  | deleteRecord (r : HRecord)
  | bulkCreate (rs : List HRecord)
  | bulkUpdate (rs : List HRecord)
deriving DecidableEq, Repr

/-- A correction produced by the Hetzner provider: description plus action. -/
structure HCorrection where
  msg : String
  action : HCorrAction
deriving DecidableEq, Repr

/-- Correction assembly of `hetznerProvider.GetZoneRecordsCorrections`
(part_000:72-135) after a successful diff and zone lookup: message
corrections for the reports, one deletion correction per deleted record in
diff order, then at most one batched creation and at most one batched
modification (each present exactly when its diff bucket is non-empty; the
modification records take the existing record's ID). -/
def getZoneRecordsCorrections (toReport : List String)
    (create del modify : List DiffPair) : List HCorrection :=
  let reports : List HCorrection := toReport.map (fun m => ⟨m, .message⟩)
  let delCorrs : List HCorrection :=
    del.map (fun m => ⟨m.desc, .deleteRecord m.existing⟩)
  let createRecords := create.map (fun m => m.desired)
  let createCorrs : List HCorrection :=
    if createRecords.length > 0 then
      [⟨String.intercalate "\n\t"
          ("Batch creation of records:" :: create.map (fun m => m.desc)),
        .bulkCreate createRecords⟩]
    else []
  let modifyRecords := modify.map (fun m => { m.desired with hid := m.existing.hid })
  let modifyCorrs : List HCorrection :=
    if modifyRecords.length > 0 then
      [⟨String.intercalate "\n\t"
          ("Batch modification of records:" :: modify.map (fun m => m.desc)),
        .bulkUpdate modifyRecords⟩]
    else []
  reports ++ delCorrs ++ createCorrs ++ modifyCorrs

/-- `hetznerProvider.GetZoneRecordsCorrections` (part_000:72-135) including
its two early error returns: a failing `IncrementalDiff` and a failing
zone-cache lookup each abort with no corrections. -/
def getZoneRecordsCorrectionsFull (diffErr zoneErr : Option String)
    (toReport : List String) (create del modify : List DiffPair) :
    Except String (List HCorrection) :=
  match diffErr with
  | some e => .error e
  | none =>
    match zoneErr with
    | some e => .error e
    | none => .ok (getZoneRecordsCorrections toReport create del modify)

/-- Modelled from the spec: the reconciliation wrapper (`pkg/zonerecs`, not
under src/) splits a provider's output into informational reports and
executable corrections — a correction is executable iff it carries an
action. -/
def isExecutable : HCorrAction → Bool
  | .message => false
  | _ => true

/-- The executable corrections of a provider's output, in produced order. -/
def executableCorrections (cs : List HCorrection) : List HCorrection :=
  cs.filter (fun c => isExecutable c.action)

/-! ## Specification-side reformulations and concrete instances -/

/-- The last `some` of a list of optional errors — "the last error encountered
across all zones" of the cleanup specification. -/
def lastErr : List (Option String) → Option String
  | [] => none
  | o :: rest =>
    match lastErr rest with
    | some e => some e
    | none => o

/-- One zone's contribution to the cleanup trace: its corrections run,
followed by the error log entry when that zone's cleanup failed. -/
def zoneCleanupTrace (z : Except String (List Correction)) : List Event :=
  let r := getAndRunCorrections z
  r.1 ++ (match r.2 with
    | some e => [Event.logCleanupError e]
    | none => [])

/-- Fresh manager holding an ample, name-matching stored certificate:
`NotAfter` is 60 days (in nanoseconds) past `now = 0`. -/
def envNoopW : IssueEnv :=
  { getCertificate := .ok (some (.parsed ["a.example", "b.example"] 5184000000000000))
    now := 0
    newClientErr := none
    obtainResult := .ok ⟨1⟩
    renewResult := .ok ⟨2⟩
    storeCertErr := none
    cleanupZones := [] }

/-- A request for the same two names in the opposite order. -/
def cfgNoopW : CertConfig := ⟨"svc", ["b.example", "a.example"], false, false⟩

/-- Fresh manager holding an ample stored certificate for a *different* name
set (only `a.example`). -/
def envMismatchW : IssueEnv :=
  { envNoopW with
    getCertificate := .ok (some (.parsed ["a.example"] 5184000000000000)) }

/-- Stored certificate with matching names but zero remaining validity. -/
def envSortX : IssueEnv :=
  { envNoopW with getCertificate := .ok (some (.parsed ["a", "b"] 0)) }

/-- Request whose name list is unsorted. -/
def cfgSortX : CertConfig := ⟨"svc", ["b", "a"], false, false⟩

/-- No stored certificate, successful issuance, but cleanup of one recorded
zone fails. -/
def envCleanupX : IssueEnv :=
  { envNoopW with
    getCertificate := .ok none
    cleanupZones := [.ok [⟨"zone cleanup", some "cleanup failed", none⟩]] }

/-- Coordinator environment whose reconciliation engine reports one pending
correction for every configuration it is shown. -/
def envPendX : PresentEnv :=
  { resolveZone := fun _ => "example.com"
    determineNS := fun _ => .ok ["ns1.example.net"]
    challengeRecord := fun d k => ("_acme-challenge." ++ d ++ ".", k)
    makeLabel := fun f _ => f
    reconcile := fun _ _ => .ok [⟨"pending drift", none, none⟩]
    ignoredProviders := [] }

/-- Coordinator environment whose reconciliation engine never has anything to
correct. -/
def envCleanP : PresentEnv :=
  { envPendX with reconcile := fun _ _ => .ok [] }

/-- A zone with one A record, no nameservers recorded yet, one provider. -/
def dcX : DomainConfig :=
  ⟨"example.com", [], [⟨"A", "@", "1.2.3.4"⟩], ["hetzner"]⟩

/-- Fresh Coordinator state over that single zone. -/
def stX : CMState := ⟨[dcX], [], []⟩

/-- The zone configuration as `Present` leaves the original in `envCleanP`'s
run: nameservers determined and the matching NS record injected. -/
def dcW1 : DomainConfig :=
  ⟨"example.com", ["ns1.example.net"],
   [⟨"A", "@", "1.2.3.4"⟩, ⟨"NS", "@", "ns1.example.net"⟩], ["hetzner"]⟩

/-- A diff entry slated for deletion. -/
def dpDelW : DiffPair := ⟨"delete stale A", ⟨"rid1", "x", "A", "1.1.1.1"⟩, ⟨"", "", "", ""⟩⟩

/-- A diff entry slated for creation. -/
def dpCreateW : DiffPair := ⟨"create TXT", ⟨"", "c", "TXT", "v"⟩, ⟨"", "c", "TXT", "v"⟩⟩

/-- A correction that executes and notifies cleanly. -/
def corrOkW : Correction := ⟨"first", none, none⟩

/-- A correction whose execution fails. -/
def corrBadW : Correction := ⟨"second", some "api failure", none⟩

/-- A correction scheduled after the failing one. -/
def corrPostW : Correction := ⟨"third", none, none⟩

/-! ## Helper lemmas: sorting and name-set comparison -/

theorem sortStrings_perm (l : List String) : (sortStrings l).Perm l :=
  List.perm_insertionSort _ l

theorem sortStrings_sorted (l : List String) :
    List.Sorted (fun a b : String => a ≤ b) (sortStrings l) :=
  List.sorted_insertionSort _ l

theorem sortStrings_eq_of_perm {a b : List String} (h : a.Perm b) :
    sortStrings a = sortStrings b :=
  List.eq_of_perm_of_sorted
    (((sortStrings_perm a).trans h).trans (sortStrings_perm b).symm)
    (sortStrings_sorted a) (sortStrings_sorted b)

theorem dnsNamesEqual_fst_iff (a b : List String) :
    (dnsNamesEqual a b).1 = true ↔ a.Perm b := by
  unfold dnsNamesEqual
  by_cases h : a.length = b.length
  · simp only [h, ne_eq, not_true_eq_false, if_false, beq_iff_eq]
    constructor
    · intro hs
      have h1 := (sortStrings_perm a).symm
      rw [hs] at h1
      exact h1.trans (sortStrings_perm b)
    · intro hp
      exact sortStrings_eq_of_perm hp
  · simp only [ne_eq, h, not_false_eq_true, if_true]
    constructor
    · intro hf
      exact absurd hf (by simp)
    · intro hp
      exact absurd hp.length_eq h

theorem dnsNamesEqual_mutated_perm (a b : List String) :
    (dnsNamesEqual a b).2.1.Perm a := by
  unfold dnsNamesEqual
  by_cases h : a.length = b.length
  · simp [h, sortStrings_perm]
  · simp [h]

/-! ## Helper lemmas: correction execution and cleanup -/

theorem runCorrections_events_shape (cs : List Correction) :
    ∀ e ∈ (runCorrections cs).1, ∃ m, e = Event.runCorrection m := by
  induction cs with
  | nil => simp [runCorrections]
  | cons c rest ih =>
    intro e he
    simp only [runCorrections] at he
    cases hr : c.runErr with
    | some err =>
      rw [hr] at he
      simp at he
      exact ⟨c.msg, he⟩
    | none =>
      rw [hr] at he
      cases hn : c.notifyErr with
      | some err2 =>
        rw [hn] at he
        simp at he
        exact ⟨c.msg, he⟩
      | none =>
        rw [hn] at he
        simp at he
        rcases he with he | he
        · exact ⟨c.msg, he⟩
        · exact ih e he

theorem getAndRunCorrections_events_shape (g : Except String (List Correction)) :
    ∀ e ∈ (getAndRunCorrections g).1, ∃ m, e = Event.runCorrection m := by
  cases g with
  | error e => simp [getAndRunCorrections]
  | ok cs => simpa [getAndRunCorrections] using runCorrections_events_shape cs

theorem finalCleanUpAux_events_shape (zs : List (Except String (List Correction))) :
    ∀ acc, ∀ e ∈ (finalCleanUpAux acc zs).1,
      e ∈ acc.1 ∨ (∃ m, e = Event.runCorrection m) ∨ ∃ m, e = Event.logCleanupError m := by
  induction zs with
  | nil =>
    intro acc e he
    simp only [finalCleanUpAux] at he
    exact .inl he
  | cons z zs ih =>
    intro acc e he
    simp only [finalCleanUpAux] at he
    cases hr : (getAndRunCorrections z).2 with
    | some err =>
      rw [hr] at he
      rcases ih _ e he with hacc | h | h
      · rcases List.mem_append.mp hacc with h1 | h2
        · rcases List.mem_append.mp h1 with h3 | h4
          · exact .inl h3
          · exact .inr (.inl (getAndRunCorrections_events_shape z e h4))
        · simp at h2
          exact .inr (.inr ⟨err, h2⟩)
      · exact .inr (.inl h)
      · exact .inr (.inr h)
    | none =>
      rw [hr] at he
      rcases ih _ e he with hacc | h | h
      · rcases List.mem_append.mp hacc with h1 | h2
        · exact .inl h1
        · exact .inr (.inl (getAndRunCorrections_events_shape z e h2))
      · exact .inr (.inl h)
      · exact .inr (.inr h)

theorem finalCleanUp_no_renew (zs : List (Except String (List Correction))) :
    Event.renew ∉ (finalCleanUp zs).1 := by
  intro h
  rcases finalCleanUpAux_events_shape zs ([], none) Event.renew h with h0 | ⟨m, hm⟩ | ⟨m, hm⟩
  · simp at h0
  · exact Event.noConfusion hm
  · exact Event.noConfusion hm

theorem finalCleanUpAux_spec (zs : List (Except String (List Correction))) :
    ∀ acc, finalCleanUpAux acc zs
      = (acc.1 ++ (zs.map zoneCleanupTrace).flatten,
         match lastErr (zs.map (fun z => (getAndRunCorrections z).2)) with
         | some e => some e
         | none => acc.2) := by
  induction zs with
  | nil =>
    intro acc
    simp [finalCleanUpAux, lastErr]
  | cons z zs ih =>
    intro acc
    cases hr : (getAndRunCorrections z).2 with
    | some e =>
      have hstep : finalCleanUpAux acc (z :: zs)
          = finalCleanUpAux
              (acc.1 ++ (getAndRunCorrections z).1 ++ [Event.logCleanupError e], some e) zs := by
        simp only [finalCleanUpAux, hr]
      rw [hstep, ih]
      simp only [List.map_cons, List.flatten_cons, zoneCleanupTrace, hr, lastErr]
      cases hl : lastErr (zs.map fun z => (getAndRunCorrections z).2) with
      | some e2 => simp [List.append_assoc]
      | none => simp [List.append_assoc]
    | none =>
      have hstep : finalCleanUpAux acc (z :: zs)
          = finalCleanUpAux (acc.1 ++ (getAndRunCorrections z).1, acc.2) zs := by
        simp only [finalCleanUpAux, hr]
      rw [hstep, ih]
      simp only [List.map_cons, List.flatten_cons, zoneCleanupTrace, hr, lastErr]
      cases hl : lastErr (zs.map fun z => (getAndRunCorrections z).2) with
      | some e2 => simp [List.append_assoc]
      | none => simp [List.append_assoc]

/-! ## Helper lemmas: the issuance action -/

theorem issueAction_obtain_events_of_client (env : IssueEnv) (cfg : CertConfig)
    (h : env.newClientErr = none) :
    (issueAction env cfg .obtainAction).events
      = [Event.obtain cfg.names cfg.mustStaple] := by
  unfold issueAction
  rw [h]
  cases env.obtainResult with
  | error e => simp
  | ok r => cases env.storeCertErr with
    | some e => simp
    | none => simp

theorem issueAction_obtain_no_renew (env : IssueEnv) (cfg : CertConfig) :
    Event.renew ∉ (issueAction env cfg .obtainAction).events := by
  unfold issueAction
  cases env.newClientErr with
  | some e => simp
  | none =>
    cases env.obtainResult with
    | error e => simp
    | ok r => cases env.storeCertErr with
      | some e => simp
      | none => simp

/-! ## Claim theorems: cleanup (C6, C3) -/

/-- C6: `finalCleanUp` attempts cleanup for every zone recorded in
`originalDomains`, in recorded order — its trace is the concatenation of each
zone's independent cleanup trace, with a log entry after each zone failure, so
one zone's failure does not prevent the remaining attempts — and the returned
error is the last error encountered across all zones (`none` if none
failed). -/
theorem finalCleanUp_attempts_all_zones_returns_last_error
    (zones : List (Except String (List Correction))) :
    finalCleanUp zones
      = ((zones.map zoneCleanupTrace).flatten,
         lastErr (zones.map (fun z => (getAndRunCorrections z).2))) := by
  rw [finalCleanUp, finalCleanUpAux_spec]
  cases hl : lastErr (zones.map fun z => (getAndRunCorrections z).2) <;> simp

/-- C3 counterexample: a call whose issuance succeeds (`changed = true`) while
the deferred final cleanup fails with "cleanup failed" still returns no error:
the cleanup error is discarded by `IssueOrRenewCert`, not surfaced, refuting
the claim that a cleanup error is returned when issuance itself succeeded. -/
theorem cleanup_error_not_surfaced_counterexample :
    (IssueOrRenewCert envCleanupX cfgNoopW 30).err = none ∧
    (IssueOrRenewCert envCleanupX cfgNoopW 30).changed = true ∧
    (finalCleanUp envCleanupX.cleanupZones).2 = some "cleanup failed" :=
  ⟨rfl, rfl, rfl⟩

/-- C3 (amended): final cleanup runs before every return of
`IssueOrRenewCert` — the cleanup trace is always a suffix of the call's
trace — but its error is discarded rather than surfaced: the returned
`(changed, error)` pair is exactly that of the same call with nothing to
clean up. -/
theorem issueOrRenewCert_cleanup_always_runs_error_discarded
    (env : IssueEnv) (cfg : CertConfig) (ru : Int) :
    (∃ evs, (IssueOrRenewCert env cfg ru).events
        = evs ++ (finalCleanUp env.cleanupZones).1) ∧
    (IssueOrRenewCert env cfg ru).changed
        = (IssueOrRenewCert { env with cleanupZones := [] } cfg ru).changed ∧
    (IssueOrRenewCert env cfg ru).err
        = (IssueOrRenewCert { env with cleanupZones := [] } cfg ru).err :=
  ⟨⟨(issueCore env cfg ru).events, rfl⟩, rfl, rfl⟩

/-! ## Claim theorems: the issuance decision (C1, C5) -/

/-- C1: on a manager with no residual working copies, when the store holds a
certificate whose remaining validity is at least the renewal threshold and
whose DNS name set equals the requested set (same cardinality, same elements,
order-independent), `IssueOrRenewCert` returns `(false, nil)` and its trace is
empty: no Obtain call, no Renew call, no correction executed. -/
theorem issueOrRenewCert_noop_when_fresh_valid_matching
    (env : IssueEnv) (cfg : CertConfig) (ru : Int) (ns : List String) (na : Int)
    (hget : env.getCertificate = .ok (some (.parsed ns na)))
    (hdays : (ru : ℚ) ≤ ((na - env.now : ℤ) : ℚ) / nsPerDay)
    (hnames : cfg.names.Perm ns)
    (hfresh : env.cleanupZones = []) :
    (IssueOrRenewCert env cfg ru).events = [] ∧
    (IssueOrRenewCert env cfg ru).changed = false ∧
    (IssueOrRenewCert env cfg ru).err = none := by
  have hok : (dnsNamesEqual cfg.names ns).1 = true :=
    (dnsNamesEqual_fst_iff _ _).mpr hnames
  have hcore : issueCore env cfg ru
      = ⟨[], { cfg with names := (dnsNamesEqual cfg.names ns).2.1 }, false, none⟩ := by
    unfold issueCore
    rw [hget]
    simp only [getCertInfo]
    rw [if_pos ⟨hdays, hok⟩]
  unfold IssueOrRenewCert
  rw [hcore, hfresh]
  simp [finalCleanUp, finalCleanUpAux]

/-- Witness for C1: a fresh manager, a 60-day certificate for
`{a.example, b.example}`, a request for the same names in the opposite order,
threshold 30. -/
theorem issueOrRenewCert_noop_when_fresh_valid_matching_witness :
    (envNoopW.getCertificate
        = .ok (some (.parsed ["a.example", "b.example"] 5184000000000000)) ∧
     ((30 : Int) : ℚ) ≤ ((5184000000000000 - envNoopW.now : ℤ) : ℚ) / nsPerDay ∧
     cfgNoopW.names.Perm ["a.example", "b.example"] ∧
     envNoopW.cleanupZones = []) ∧
    ((IssueOrRenewCert envNoopW cfgNoopW 30).events = [] ∧
     (IssueOrRenewCert envNoopW cfgNoopW 30).changed = false ∧
     (IssueOrRenewCert envNoopW cfgNoopW 30).err = none) :=
  ⟨⟨rfl, by norm_num [envNoopW, nsPerDay], by decide, rfl⟩,
   issueOrRenewCert_noop_when_fresh_valid_matching envNoopW cfgNoopW 30
     ["a.example", "b.example"] 5184000000000000 rfl
     (by norm_num [envNoopW, nsPerDay]) (by decide) rfl⟩

/-- C5: when the store holds a certificate whose DNS name set differs from the
requested set, the selected action is Obtain, never Renew — whatever the
remaining validity: the trace never contains a Renew call, and as soon as the
ACME client is constructed it contains an Obtain call for the requested name
set. -/
theorem issueOrRenewCert_name_mismatch_selects_obtain
    (env : IssueEnv) (cfg : CertConfig) (ru : Int) (ns : List String) (na : Int)
    (hget : env.getCertificate = .ok (some (.parsed ns na)))
    (hnames : ¬ cfg.names.Perm ns) :
    Event.renew ∉ (IssueOrRenewCert env cfg ru).events ∧
    (env.newClientErr = none →
      ∃ nms, nms.Perm cfg.names ∧
        Event.obtain nms cfg.mustStaple ∈ (IssueOrRenewCert env cfg ru).events) := by
  have hok : (dnsNamesEqual cfg.names ns).1 = false := by
    cases hb : (dnsNamesEqual cfg.names ns).1 with
    | false => rfl
    | true => exact absurd ((dnsNamesEqual_fst_iff _ _).mp hb) hnames
  have hcore : issueCore env cfg ru
      = issueAction env { cfg with names := (dnsNamesEqual cfg.names ns).2.1 }
          .obtainAction := by
    unfold issueCore
    rw [hget]
    simp only [getCertInfo]
    rw [if_neg (by rintro ⟨-, hc⟩; rw [hok] at hc; exact Bool.false_ne_true hc)]
    rw [if_pos hok]
  constructor
  · intro hmem
    unfold IssueOrRenewCert at hmem
    rw [hcore] at hmem
    rcases List.mem_append.mp hmem with h | h
    · exact issueAction_obtain_no_renew env _ h
    · exact finalCleanUp_no_renew _ h
  · intro hcl
    refine ⟨(dnsNamesEqual cfg.names ns).2.1, dnsNamesEqual_mutated_perm _ _, ?_⟩
    unfold IssueOrRenewCert
    rw [hcore]
    simp [issueAction_obtain_events_of_client _ _ hcl]

/-- Witness for C5: stored certificate covers only `a.example` with ample
validity; the request asks for two names. -/
theorem issueOrRenewCert_name_mismatch_selects_obtain_witness :
    (envMismatchW.getCertificate
        = .ok (some (.parsed ["a.example"] 5184000000000000)) ∧
     ¬ cfgNoopW.names.Perm ["a.example"]) ∧
    (Event.renew ∉ (IssueOrRenewCert envMismatchW cfgNoopW 30).events ∧
     (envMismatchW.newClientErr = none →
       ∃ nms, nms.Perm cfgNoopW.names ∧
         Event.obtain nms cfgNoopW.mustStaple
           ∈ (IssueOrRenewCert envMismatchW cfgNoopW 30).events)) :=
  ⟨⟨rfl, by decide⟩,
   issueOrRenewCert_name_mismatch_selects_obtain envMismatchW cfgNoopW 30
     ["a.example"] 5184000000000000 rfl (by decide)⟩

/-! ## Helper lemmas: ground sorts and action frame -/

theorem sortStrings_ba : sortStrings ["b", "a"] = ["a", "b"] := by
  apply List.eq_of_perm_of_sorted
    ((sortStrings_perm _).trans (by decide)) (sortStrings_sorted _)
  simp [List.sorted_cons]
  decide

theorem sortStrings_ab : sortStrings ["a", "b"] = ["a", "b"] := by
  apply List.eq_of_perm_of_sorted
    ((sortStrings_perm _).trans (by decide)) (sortStrings_sorted _)
  simp [List.sorted_cons]
  decide

theorem issueAction_cfgAfter (env : IssueEnv) (cfg : CertConfig) (k : ActionKind) :
    (issueAction env cfg k).cfgAfter = cfg := by
  unfold issueAction
  cases env.newClientErr with
  | some e => rfl
  | none =>
    cases k with
    | obtainAction =>
      cases env.obtainResult with
      | error e => rfl
      | ok r =>
        cases env.storeCertErr with
        | some e => rfl
        | none => rfl
    | renewAction =>
      cases env.renewResult with
      | error e => rfl
      | ok r =>
        cases env.storeCertErr with
        | some e => rfl
        | none => rfl

/-! ## Claim theorems: request mutation (C8) -/

/-- C8 counterexample: a call that finds a stored certificate leaves the
request's `Names` list reordered: the stored certificate covers `{a, b}`, the
request lists `["b", "a"]`, and after the call the request's list reads
`["a", "b"]` — `dnsNamesEqual` sorted the caller's slice in place, refuting
the claim that the request is left unchanged. -/
theorem certConfig_mutated_counterexample :
    (IssueOrRenewCert envSortX cfgSortX 30).cfgAfter.names ≠ cfgSortX.names := by
  have hd : dnsNamesEqual cfgSortX.names ["a", "b"] = (true, ["a", "b"], ["a", "b"]) := by
    show dnsNamesEqual ["b", "a"] ["a", "b"] = (true, ["a", "b"], ["a", "b"])
    unfold dnsNamesEqual
    simp [sortStrings_ba, sortStrings_ab]
  have hcore : issueCore envSortX cfgSortX 30
      = issueAction envSortX { cfgSortX with names := ["a", "b"] } .renewAction := by
    unfold issueCore
    rw [show envSortX.getCertificate = .ok (some (.parsed ["a", "b"] 0)) from rfl]
    simp only [getCertInfo, hd]
    norm_num [envSortX, envNoopW, nsPerDay]
  have hres : (IssueOrRenewCert envSortX cfgSortX 30).cfgAfter
      = { cfgSortX with names := ["a", "b"] } := by
    show (issueCore envSortX cfgSortX 30).cfgAfter = _
    rw [hcore, issueAction_cfgAfter]
  rw [hres]
  simp [cfgSortX]

/-- C8 (amended): `IssueOrRenewCert` leaves the request's logical name, key
flag, staple flag and name *multiset* unchanged — but when a stored
certificate is found, `dnsNamesEqual` sorts the request's `Names` slice in
place, so the list's ordering is not preserved. -/
theorem issueOrRenewCert_request_preserved_up_to_reorder
    (env : IssueEnv) (cfg : CertConfig) (ru : Int) :
    (IssueOrRenewCert env cfg ru).cfgAfter.certName = cfg.certName ∧
    (IssueOrRenewCert env cfg ru).cfgAfter.useECC = cfg.useECC ∧
    (IssueOrRenewCert env cfg ru).cfgAfter.mustStaple = cfg.mustStaple ∧
    (IssueOrRenewCert env cfg ru).cfgAfter.names.Perm cfg.names := by
  have hsplit : (issueCore env cfg ru).cfgAfter = cfg ∨
      ∃ ns, (issueCore env cfg ru).cfgAfter
        = { cfg with names := (dnsNamesEqual cfg.names ns).2.1 } := by
    unfold issueCore
    split
    · exact .inl rfl
    · exact .inl (issueAction_cfgAfter _ _ _)
    · split
      · exact .inl rfl
      · dsimp only
        split
        · exact .inr ⟨_, rfl⟩
        · split
          · exact .inr ⟨_, issueAction_cfgAfter _ _ _⟩
          · exact .inr ⟨_, issueAction_cfgAfter _ _ _⟩
  have hcfg : (IssueOrRenewCert env cfg ru).cfgAfter
      = (issueCore env cfg ru).cfgAfter := rfl
  rcases hsplit with h | ⟨ns, h⟩
  · rw [hcfg, h]
    exact ⟨rfl, rfl, rfl, List.Perm.refl _⟩
  · rw [hcfg, h]
    exact ⟨rfl, rfl, rfl, dnsNamesEqual_mutated_perm _ _⟩

/-! ## Helper lemmas: binary64 rounding -/

theorem rnte_one (a : ℕ) : rnte a 1 = a := by
  simp [rnte, Nat.mod_one, Nat.div_one]

theorem rnte_nat_le (a b : ℕ) (hb : b ≠ 0) : 2 * rnte a b * b ≤ 2 * a + b := by
  obtain ⟨q, r, hr, ha⟩ : ∃ q r, r < b ∧ a = b * q + r :=
    ⟨a / b, a % b, Nat.mod_lt a (Nat.pos_of_ne_zero hb), (Nat.div_add_mod a b).symm⟩
  have hq : a / b = q := by
    rw [ha, Nat.mul_add_div (Nat.pos_of_ne_zero hb), Nat.div_eq_of_lt hr, Nat.add_zero]
  have hrm : a % b = r := by
    rw [ha, Nat.mul_add_mod, Nat.mod_eq_of_lt hr]
  simp only [rnte]
  rw [hq, hrm]
  subst ha
  split
  · nlinarith
  · split
    · nlinarith
    · split <;> nlinarith

theorem rnte_cast_le (a b : ℕ) (hb : b ≠ 0) :
    (rnte a b : ℚ) ≤ (a : ℚ) / b + 1 / 2 := by
  have hN := rnte_nat_le a b hb
  have hb0 : (0:ℚ) < b := by exact_mod_cast Nat.pos_of_ne_zero hb
  have h2 : (rnte a b : ℚ) ≤ (2 * a + b) / (2 * b) := by
    rw [le_div_iff (by positivity)]
    calc (rnte a b : ℚ) * (2 * b) = ((2 * rnte a b * b : ℕ) : ℚ) := by push_cast; ring
      _ ≤ ((2 * a + b : ℕ) : ℚ) := by exact_mod_cast hN
      _ = 2 * a + b := by push_cast; ring
  calc (rnte a b : ℚ) ≤ (2 * a + b) / (2 * b) := h2
    _ = (a : ℚ) / b + 1 / 2 := by field_simp; ring

theorem zpow_toNat_div (d : ℤ) :
    (2:ℚ) ^ d = (2:ℚ) ^ d.toNat / (2:ℚ) ^ (-d).toNat := by
  rcases le_or_lt 0 d with h | h
  · have h0 : (-d).toNat = 0 := Int.toNat_of_nonpos (by omega)
    rw [h0, ← zpow_natCast (2:ℚ) d.toNat, Int.toNat_of_nonneg h]
    simp
  · have h0 : d.toNat = 0 := Int.toNat_of_nonpos (le_of_lt h)
    have h1 : (2:ℚ) ^ d = ((2:ℚ) ^ (-d))⁻¹ := by
      rw [← zpow_neg, neg_neg]
    rw [h0, h1, ← zpow_natCast (2:ℚ) (-d).toNat, Int.toNat_of_nonneg (by omega)]
    simp

theorem binadePos_le (p q : ℕ) (hp : p ≠ 0) (hq : q ≠ 0) :
    (2:ℚ) ^ binadePos p q ≤ (p : ℚ) / q := by
  have hq0 : (0:ℚ) < q := by exact_mod_cast Nat.pos_of_ne_zero hq
  simp only [binadePos]
  split
  next hguard =>
    rw [zpow_toNat_div, div_le_div_iff (by positivity) hq0]
    have hg : ((q * 2 ^ (((Nat.log2 p : ℤ) - (Nat.log2 q : ℤ)).toNat) : ℕ) : ℚ)
        ≤ ((p * 2 ^ ((-((Nat.log2 p : ℤ) - (Nat.log2 q : ℤ))).toNat) : ℕ) : ℚ) := by
      exact_mod_cast hguard
    push_cast at hg
    linarith
  next hguard =>
    have h1 : (2:ℕ) ^ Nat.log2 p ≤ p := Nat.log2_self_le hp
    have h2 : q < 2 ^ (Nat.log2 q + 1) := Nat.lt_log2_self
    have key : (2:ℚ) ^ ((Nat.log2 p : ℤ) - (Nat.log2 q : ℤ) - 1)
        = (2:ℚ) ^ (Nat.log2 p) / (2:ℚ) ^ (Nat.log2 q + 1) := by
      rw [← zpow_natCast (2:ℚ) (Nat.log2 p), ← zpow_natCast (2:ℚ) (Nat.log2 q + 1),
        ← zpow_sub₀ (by norm_num : (2:ℚ) ≠ 0)]
      congr 1
      push_cast
      ring
    rw [key, div_le_div_iff (by positivity) hq0]
    have h1Q : (2:ℚ) ^ Nat.log2 p ≤ (p:ℚ) := by exact_mod_cast h1
    have h2Q : (q:ℚ) ≤ (2:ℚ) ^ (Nat.log2 q + 1) := by
      have h2' : (q:ℚ) ≤ ((2 ^ (Nat.log2 q + 1) : ℕ) : ℚ) := by
        exact_mod_cast le_of_lt h2
      simpa using h2'
    exact mul_le_mul h1Q h2Q (by positivity) (by positivity)

theorem roundFloatPos_le (p q : ℕ) (hp : p ≠ 0) (hq : q ≠ 0) :
    roundFloatPos p q ≤ (p : ℚ) / q + (2:ℚ) ^ (binadePos p q - 53) := by
  have hq0 : (0:ℚ) < q := by exact_mod_cast Nat.pos_of_ne_zero hq
  simp only [roundFloatPos, hp, if_false]
  split
  next hk0 =>
    have hqk : q * 2 ^ (binadePos p q - 52).toNat ≠ 0 := by positivity
    have h := rnte_cast_le p (q * 2 ^ (binadePos p q - 52).toNat) hqk
    push_cast at h
    have h2 := mul_le_mul_of_nonneg_right h
      (by positivity : (0:ℚ) ≤ 2 ^ (binadePos p q - 52).toNat)
    have h3 : ((p:ℚ) / ((q:ℚ) * 2 ^ (binadePos p q - 52).toNat) + 1/2)
          * 2 ^ (binadePos p q - 52).toNat
        = (p:ℚ) / q + 2 ^ (binadePos p q - 52).toNat / 2 := by
      field_simp
      ring
    have h4 : ((2:ℚ)) ^ (binadePos p q - 52).toNat / 2
        = (2:ℚ) ^ (binadePos p q - 53) := by
      rw [← zpow_natCast (2:ℚ) (binadePos p q - 52).toNat, Int.toNat_of_nonneg hk0]
      rw [show binadePos p q - 53 = (binadePos p q - 52) + (-1) by ring]
      rw [zpow_add₀ (by norm_num : (2:ℚ) ≠ 0), zpow_neg_one, div_eq_mul_inv]
    calc (rnte p (q * 2 ^ (binadePos p q - 52).toNat) : ℚ)
          * 2 ^ (binadePos p q - 52).toNat
        ≤ ((p:ℚ) / ((q:ℚ) * 2 ^ (binadePos p q - 52).toNat) + 1/2)
          * 2 ^ (binadePos p q - 52).toNat := h2
      _ = (p:ℚ) / q + 2 ^ (binadePos p q - 52).toNat / 2 := h3
      _ = (p:ℚ) / q + (2:ℚ) ^ (binadePos p q - 53) := by rw [h4]
  next hk0 =>
    have hjk : ((-(binadePos p q - 52)).toNat : ℤ) = -(binadePos p q - 52) :=
      Int.toNat_of_nonneg (by omega)
    have h := rnte_cast_le (p * 2 ^ (-(binadePos p q - 52)).toNat) q hq
    push_cast at h
    have h2j : (0:ℚ) < 2 ^ (-(binadePos p q - 52)).toNat := by positivity
    have h2 : (rnte (p * 2 ^ (-(binadePos p q - 52)).toNat) q : ℚ)
          / 2 ^ (-(binadePos p q - 52)).toNat
        ≤ ((p:ℚ) * 2 ^ (-(binadePos p q - 52)).toNat / q + 1/2)
          / 2 ^ (-(binadePos p q - 52)).toNat := by
      gcongr
    have h3 : ((p:ℚ) * 2 ^ (-(binadePos p q - 52)).toNat / q + 1/2)
          / 2 ^ (-(binadePos p q - 52)).toNat
        = (p:ℚ) / q + 1 / (2 * 2 ^ (-(binadePos p q - 52)).toNat) := by
      field_simp
      ring
    have h4 : (1:ℚ) / (2 * 2 ^ (-(binadePos p q - 52)).toNat)
        = (2:ℚ) ^ (binadePos p q - 53) := by
      rw [show binadePos p q - 53 = -(((-(binadePos p q - 52)).toNat : ℤ) + 1) from by omega]
      rw [zpow_neg]
      rw [show (((-(binadePos p q - 52)).toNat : ℤ) + 1)
          = (((-(binadePos p q - 52)).toNat + 1 : ℕ) : ℤ) from by push_cast; ring]
      rw [zpow_natCast]
      rw [pow_succ]
      rw [one_div]
      ring_nf
    calc (rnte (p * 2 ^ (-(binadePos p q - 52)).toNat) q : ℚ)
          / 2 ^ (-(binadePos p q - 52)).toNat
        ≤ ((p:ℚ) * 2 ^ (-(binadePos p q - 52)).toNat / q + 1/2)
          / 2 ^ (-(binadePos p q - 52)).toNat := h2
      _ = (p:ℚ) / q + 1 / (2 * 2 ^ (-(binadePos p q - 52)).toNat) := h3
      _ = (p:ℚ) / q + (2:ℚ) ^ (binadePos p q - 53) := by rw [h4]

theorem roundFloatPos_le_rel (p q : ℕ) (hp : p ≠ 0) (hq : q ≠ 0) :
    roundFloatPos p q ≤ ((p:ℚ) / q) * (1 + (2:ℚ) ^ (-53 : ℤ)) := by
  have h1 := roundFloatPos_le p q hp hq
  have h2 := binadePos_le p q hp hq
  have h3 : (2:ℚ) ^ (binadePos p q - 53)
      = (2:ℚ) ^ (binadePos p q) * (2:ℚ) ^ (-53:ℤ) := by
    rw [← zpow_add₀ (by norm_num : (2:ℚ) ≠ 0), sub_eq_add_neg]
  have h4 : (2:ℚ) ^ (binadePos p q) * (2:ℚ) ^ (-53:ℤ)
      ≤ ((p:ℚ)/q) * (2:ℚ) ^ (-53:ℤ) := by
    apply mul_le_mul_of_nonneg_right h2
    positivity
  calc roundFloatPos p q ≤ (p:ℚ)/q + (2:ℚ) ^ (binadePos p q - 53) := h1
    _ ≤ (p:ℚ)/q + ((p:ℚ)/q) * (2:ℚ) ^ (-53:ℤ) := by rw [h3]; linarith
    _ = ((p:ℚ)/q) * (1 + (2:ℚ) ^ (-53:ℤ)) := by ring

theorem roundFloat_zero : roundFloat 0 = 0 := by
  simp [roundFloat, roundFloatPos]

theorem roundFloat_le_rel (x : ℚ) (hx : 0 < x) :
    roundFloat x ≤ x * (1 + (2:ℚ) ^ (-53 : ℤ)) := by
  unfold roundFloat
  rw [if_neg (not_lt.mpr (le_of_lt hx))]
  have hnn : 0 ≤ x.num := le_of_lt (Rat.num_pos.mpr hx)
  have hp : x.num.toNat ≠ 0 := by
    have := Rat.num_pos.mpr hx
    omega
  have hq : x.den ≠ 0 := x.den_nz
  have hx' : ((x.num.toNat : ℕ) : ℚ) / (x.den : ℚ) = x := by
    rw [show ((x.num.toNat : ℕ) : ℚ) = ((x.num : ℤ) : ℚ) from by
      exact_mod_cast Int.toNat_of_nonneg hnn]
    exact Rat.num_div_den x
  calc roundFloatPos x.num.toNat x.den
      ≤ (((x.num.toNat : ℕ) : ℚ) / (x.den : ℚ)) * (1 + (2:ℚ) ^ (-53:ℤ)) :=
        roundFloatPos_le_rel _ _ hp hq
    _ = x * (1 + (2:ℚ) ^ (-53:ℤ)) := by rw [hx']

theorem roundFloatPos_eq_self_of_lt (p : ℕ) (hp : p < 2 ^ 53) :
    roundFloatPos p 1 = (p : ℚ) := by
  rcases Nat.eq_zero_or_pos p with h0 | h0
  · subst h0
    simp [roundFloatPos]
  have hp0 : p ≠ 0 := Nat.pos_iff_ne_zero.mp h0
  have hlog : Nat.log2 p < 53 := (Nat.log2_lt hp0).mpr hp
  have hlog1 : Nat.log2 1 = 0 := by
    simp [Nat.log2]
  have hE : binadePos p 1 = (Nat.log2 p : ℤ) := by
    simp only [binadePos, hlog1, Nat.cast_zero, sub_zero]
    rw [if_pos]
    have : ((Nat.log2 p : ℤ)).toNat = Nat.log2 p := Int.toNat_natCast _
    rw [this, Int.toNat_of_nonpos (by omega), pow_zero, one_mul, mul_one]
    exact Nat.log2_self_le hp0
  simp only [roundFloatPos, hp0, if_false]
  have hk : binadePos p 1 - 52 ≤ 0 := by omega
  split
  next hk0 =>
    have hkz : binadePos p 1 - 52 = 0 := le_antisymm hk hk0
    rw [hkz]
    norm_num [rnte_one]
  next hk0 =>
    rw [rnte_one]
    push_cast
    rw [mul_div_assoc, div_self (by positivity), mul_one]

theorem floatOfInt_eq_self (n : ℤ) (h0 : 0 ≤ n) (h53 : n < 2 ^ 53) :
    floatOfInt n = (n : ℚ) := by
  unfold floatOfInt roundFloat
  rw [if_neg (by exact_mod_cast not_lt.mpr h0)]
  rw [Rat.num_intCast, Rat.den_intCast]
  have hlt : n.toNat < 2 ^ 53 := by omega
  rw [roundFloatPos_eq_self_of_lt n.toNat hlt]
  exact_mod_cast Int.toNat_of_nonneg h0

/-! ## Claim theorems: numeric semantics (C9) -/

/-- Counterexample for C9: under bit-accurate binary64 semantics the claim is
false.  With threshold 1000 days and 86399999999999999 ns remaining (one
nanosecond short of 1000 days, so strictly under the threshold, and the exact
quotient computed by `getCertInfo` is strictly below 1000), the `int64` →
`float64` conversion rounds the duration up to 86400000000000000 (the value
lies above 2^56, where binary64 spacing is 16), the division is then exact,
`daysLeft` computes to exactly 1000, and the no-op comparison
`daysLeft >= float64(renewUnder)` is true. -/
theorem daysLeft_float_rounding_counterexample :
    ((86399999999999999 : ℤ) - 0 < 1000 * 86400000000000) ∧
    ¬ ((1000 : ℚ) ≤ ((86399999999999999 - 0 : ℤ) : ℚ) / nsPerDay) ∧
    daysLeftFloat 0 86399999999999999 = 1000 ∧
    floatOfInt 1000 ≤ daysLeftFloat 0 86399999999999999 := by
  have e1 : floatOfInt 86399999999999999 = 86400000000000000 := by
    unfold floatOfInt roundFloat
    rw [if_neg (by norm_num)]
    rw [Rat.num_intCast, Rat.den_intCast]
    rw [show ((86399999999999999:ℤ)).toNat = 86399999999999999 from rfl]
    norm_num [roundFloatPos, binadePos, rnte, Nat.log2, Int.toNat_ofNat,
      Int.toNat_natCast, show ((-56:ℤ)).toNat = 0 from rfl,
      show Int.toNat 56 = 56 from rfl, show Int.toNat 4 = 4 from rfl,
      show ((56:ℤ) - 52).toNat = 4 from rfl]
  have e2 : roundFloat (1000:ℚ) = 1000 := by
    have h := floatOfInt_eq_self 1000 (by norm_num) (by norm_num)
    unfold floatOfInt at h
    push_cast at h
    exact h
  have e3 : daysLeftFloat 0 86399999999999999 = 1000 := by
    unfold daysLeftFloat
    rw [show (86399999999999999:ℤ) - 0 = 86399999999999999 from by norm_num, e1]
    rw [show (86400000000000000:ℚ) / 86400000000000 = 1000 from by norm_num]
    exact e2
  have e4 : floatOfInt 1000 = (1000:ℚ) := by
    have h := floatOfInt_eq_self 1000 (by norm_num) (by norm_num)
    rw [h]
    norm_num
  exact ⟨by norm_num, by rw [not_le]; norm_num [nsPerDay], e3, by rw [e3, e4]⟩

/-- C9 (amended): the untruncated-comparison property holds in the regime where
the threshold's worth of nanoseconds fits in 2^53 (thresholds up to 104 days,
covering the spec's 29.9-against-30 example): there the `int64` → `float64`
conversion of the sub-threshold duration is exact, and for every certificate
with strictly fewer nanoseconds remaining than the threshold, `daysLeft` as
computed bit-accurately at acme.go:186 (`daysLeftFloat`) is the correctly
rounded exact quotient and the no-op comparison
`daysLeft >= float64(renewUnder)` of acme.go:135 is false.  Outside that
regime the property fails (see the counterexample at threshold 1000). -/
theorem daysLeftFloat_small_threshold (now notAfter T : ℤ)
    (h0 : 0 ≤ notAfter - now)
    (h1 : notAfter - now < T * 86400000000000)
    (h2 : T * 86400000000000 ≤ 2 ^ 53) :
    daysLeftFloat now notAfter
      = roundFloat (((notAfter - now : ℤ) : ℚ) / 86400000000000) ∧
    ¬ (floatOfInt T ≤ daysLeftFloat now notAfter) := by
  have hT : 0 < T := by nlinarith
  have ht53 : notAfter - now < 2 ^ 53 := lt_of_lt_of_le h1 h2
  have hT53 : T < 2 ^ 53 := by nlinarith
  have hconv : floatOfInt (notAfter - now) = ((notAfter - now : ℤ) : ℚ) :=
    floatOfInt_eq_self _ h0 ht53
  have hconvT : floatOfInt T = (T : ℚ) := floatOfInt_eq_self _ (le_of_lt hT) hT53
  have heq : daysLeftFloat now notAfter
      = roundFloat (((notAfter - now : ℤ) : ℚ) / 86400000000000) := by
    unfold daysLeftFloat
    rw [hconv]
  refine ⟨heq, ?_⟩
  rw [heq, hconvT, not_le]
  rcases eq_or_lt_of_le h0 with h00 | h0p
  · rw [← h00]
    norm_num [roundFloat_zero]
    exact_mod_cast hT
  · have hx : (0:ℚ) < ((notAfter - now : ℤ) : ℚ) / 86400000000000 := by
      have : (0:ℚ) < ((notAfter - now : ℤ) : ℚ) := by exact_mod_cast h0p
      positivity
    have hrb := roundFloat_le_rel _ hx
    have heps : (0:ℚ) < (2:ℚ) ^ (-53:ℤ) := by positivity
    have hxle : ((notAfter - now : ℤ) : ℚ) / 86400000000000
        ≤ (T:ℚ) - 1 / 86400000000000 := by
      rw [div_le_iff (by norm_num : (0:ℚ) < 86400000000000)]
      have hZ : (notAfter - now : ℤ) ≤ T * 86400000000000 - 1 := by omega
      have h1' : ((notAfter - now : ℤ) : ℚ) ≤ ((T * 86400000000000 - 1 : ℤ) : ℚ) := by
        exact_mod_cast hZ
      push_cast at h1' ⊢
      linarith
    have hTb : (T:ℚ) * (2:ℚ) ^ (-53:ℤ) ≤ 1 / 86400000000000 := by
      have h2Q : (T:ℚ) * 86400000000000 ≤ 2 ^ 53 := by exact_mod_cast h2
      have hval : (T:ℚ) * (2:ℚ) ^ (-53:ℤ) = (T:ℚ) / 2 ^ (53:ℕ) := by
        rw [zpow_neg, div_eq_mul_inv]
        norm_num
      rw [hval, div_le_div_iff (by positivity) (by norm_num : (0:ℚ) < 86400000000000)]
      linarith [h2Q]
    calc roundFloat (((notAfter - now : ℤ) : ℚ) / 86400000000000)
        ≤ (((notAfter - now : ℤ) : ℚ) / 86400000000000) * (1 + (2:ℚ) ^ (-53:ℤ)) := hrb
      _ ≤ ((T:ℚ) - 1 / 86400000000000) * (1 + (2:ℚ) ^ (-53:ℤ)) := by
          apply mul_le_mul_of_nonneg_right hxle
          positivity
      _ < T := by
          nlinarith [hTb, mul_pos (show (0:ℚ) < 1 / 86400000000000 by norm_num) heps]

/-- Witness for C9 (amended): 29.9 days of validity (2583360000000000 ns)
against a threshold of 30 days, inside the exact-conversion regime. -/
theorem daysLeftFloat_small_threshold_witness :
    ((0:ℤ) ≤ 2583360000000000 - 0 ∧
     (2583360000000000:ℤ) - 0 < 30 * 86400000000000 ∧
     (30:ℤ) * 86400000000000 ≤ 2 ^ 53) ∧
    (daysLeftFloat 0 2583360000000000
        = roundFloat (((2583360000000000 - 0 : ℤ) : ℚ) / 86400000000000) ∧
     ¬ (floatOfInt 30 ≤ daysLeftFloat 0 2583360000000000)) :=
  ⟨⟨by norm_num, by norm_num, by norm_num⟩,
   daysLeftFloat_small_threshold 0 2583360000000000 30 (by norm_num) (by norm_num)
     (by norm_num)⟩

/-! ## Helper lemmas: the Coordinator state -/

theorem updateCfg_mem (cfg : List DomainConfig) (k : String) (v : DomainConfig) :
    ∀ dc ∈ updateCfg cfg k v, dc = v ∨ dc ∈ cfg := by
  intro dc hdc
  unfold updateCfg at hdc
  rcases List.mem_map.mp hdc with ⟨dc0, h0, heq⟩
  by_cases hb : (dc0.name == k) = true
  · rw [if_pos hb] at heq
    exact .inl heq.symm
  · rw [if_neg hb] at heq
    exact .inr (heq ▸ h0)

theorem addNSRecords_records_cases (d : DomainConfig) :
    ∀ rec ∈ (addNSRecords d).records, rec ∈ d.records ∨ rec.rtype = "NS" := by
  intro rec hrec
  simp only [addNSRecords] at hrec
  rcases List.mem_append.mp hrec with h | h
  · exact .inl h
  · rcases List.mem_map.mp h with ⟨ns, hns, heq⟩
    refine .inr ?_
    rw [← heq]

theorem updateAssoc_map_fst (m : List (String × DomainConfig)) (k : String)
    (v : DomainConfig) :
    (updateAssoc m k v).map Prod.fst = m.map Prod.fst := by
  unfold updateAssoc
  rw [List.map_map]
  apply List.map_congr_left
  intro p hp
  by_cases hb : p.1 = k
  · simp [hb]
  · simp [hb]

theorem lookup_isSome_iff (m : List (String × DomainConfig)) (n : String) :
    (m.lookup n).isSome ↔ n ∈ m.map Prod.fst := by
  induction m with
  | nil => simp [List.lookup]
  | cons p t ih =>
    cases p with
    | mk k v =>
      simp only [List.lookup, List.map_cons]
      cases hbe : (n == k) with
      | true =>
        simp [eq_of_beq hbe]
      | false =>
        have hne : ¬ n = k := by
          intro h
          rw [h] at hbe
          simp at hbe
        simp [ih, hne]

theorem updateCfg_addNS_cases (cfg : List DomainConfig) (d : DomainConfig)
    (nsList : List String) (hd : d ∈ cfg) :
    ∀ dc ∈ updateCfg cfg d.name (addNSRecords { d with nameservers := nsList }),
      ∃ dc0 ∈ cfg, dc.name = dc0.name ∧
        ∀ rec ∈ dc.records, rec ∈ dc0.records ∨ rec.rtype = "NS" := by
  intro dc hdc
  rcases updateCfg_mem _ _ _ dc hdc with h | h
  · refine ⟨d, hd, ?_, ?_⟩
    · rw [h]
      rfl
    · intro rec hrec
      rw [h] at hrec
      rcases addNSRecords_records_cases _ rec hrec with h2 | h2
      · exact .inl h2
      · exact .inr h2
  · exact ⟨dc, h, rfl, fun rec hr => .inl hr⟩

/-! ## Claim theorems: Present and the original configurations (C2, C4) -/

/-- C4 counterexample: a successful `Present` (no pending corrections, no
error) leaves the caller-supplied original configuration changed — the
nameserver fixup mutated it in place — refuting the claim that the original is
never mutated. -/
theorem present_mutates_original_counterexample :
    (Present envCleanP stX "www.example.com" "KA").2.2 = none ∧
    (Present envCleanP stX "www.example.com" "KA").1.cfg ≠ stX.cfg := by
  decide

/-- C4 (amended): the DNS-01 TXT validation record is appended only to the
working copy: after any `Present` call, every record of every caller-supplied
original configuration either was already there or is an NS record injected by
the nameserver fixup — the originals never gain a TXT record, but they are
mutated in place by that fixup. -/
theorem present_txt_only_on_working_copy
    (env : PresentEnv) (st : CMState) (domain keyAuth : String) :
    ∀ dc ∈ (Present env st domain keyAuth).1.cfg,
      ∃ dc0 ∈ st.cfg, dc.name = dc0.name ∧
        ∀ rec ∈ dc.records, rec ∈ dc0.records ∨ rec.rtype = "NS" := by
  intro dc hdc
  simp only [Present] at hdc
  split at hdc
  · exact ⟨dc, hdc, rfl, fun rec hr => .inl hr⟩
  case h_2 d hfind =>
    split at hdc
    · exact ⟨dc, hdc, rfl, fun rec hr => .inl hr⟩
    · split at hdc
      · exact ⟨dc, hdc, rfl, fun rec hr => .inl hr⟩
      case h_2 nsList hns =>
        split at hdc
        · exact updateCfg_addNS_cases st.cfg d nsList (List.mem_of_find?_eq_some hfind) dc hdc
        · exact updateCfg_addNS_cases st.cfg d nsList (List.mem_of_find?_eq_some hfind) dc hdc

/-- Witness for C4 (amended): after the concrete successful `Present` run, the
(mutated) original of `example.com` gained only an NS record and still holds
no TXT record. -/
theorem present_txt_only_on_working_copy_witness :
    (dcW1 ∈ (Present envCleanP stX "www.example.com" "KA").1.cfg) ∧
    ∃ dc0 ∈ stX.cfg, dcW1.name = dc0.name ∧
      ∀ rec ∈ dcW1.records, rec ∈ dc0.records ∨ rec.rtype = "NS" :=
  ⟨by decide,
   present_txt_only_on_working_copy envCleanP stX "www.example.com" "KA" dcW1 (by decide)⟩

/-! ## Claim theorems: the working-copy registry (C7) -/

theorem presentTail_state (env : PresentEnv) (st : CMState) (d : DomainConfig)
    (domain keyAuth : String) :
    (presentTail env st d domain keyAuth).1.cfg = st.cfg ∧
    (presentTail env st d domain keyAuth).1.originalDomains = st.originalDomains ∧
    (presentTail env st d domain keyAuth).1.domains.map Prod.fst
      = st.domains.map Prod.fst :=
  ⟨rfl, rfl, updateAssoc_map_fst _ _ _⟩

theorem present_preserves_registry
    (env : PresentEnv) (st : CMState) (domain keyAuth : String)
    (h1 : st.originalDomains = st.domains.map Prod.fst)
    (h2 : st.originalDomains.Nodup) :
    (Present env st domain keyAuth).1.originalDomains
        = (Present env st domain keyAuth).1.domains.map Prod.fst ∧
    (Present env st domain keyAuth).1.originalDomains.Nodup := by
  simp only [Present]
  split
  · exact ⟨h1, h2⟩
  case h_2 d hfind =>
    split
    case h_1 seen hlk =>
      rcases presentTail_state env st seen domain keyAuth with ⟨-, ho, hm⟩
      rw [ho, hm]
      exact ⟨h1, h2⟩
    case h_2 hlk =>
      split
      · exact ⟨h1, h2⟩
      case h_2 nsList hns =>
        split
        · exact ⟨h1, h2⟩
        · -- success: working copy registered, then the TXT appended to it
          have hnot : d.name ∉ st.originalDomains := by
            rw [h1]
            intro hmem
            have hs := (lookup_isSome_iff st.domains d.name).mpr hmem
            rw [hlk] at hs
            simp at hs
          constructor
          · rw [(presentTail_state _ _ _ _ _).2.1, (presentTail_state _ _ _ _ _).2.2]
            simp [h1]
          · rw [(presentTail_state _ _ _ _ _).2.1]
            simp only [List.nodup_append, List.nodup_cons, List.nodup_nil]
            exact ⟨h2, by simp, by simpa using hnot⟩

/-- C7: after any sequence of `Present` calls on one Coordinator starting from
a fresh manager, every zone appears in `originalDomains` at most once, and a
zone is recorded there exactly when a working copy for it exists in the
working-copy map. -/
theorem present_registry_invariant (env : PresentEnv) (cfg0 : List DomainConfig)
    (calls : List (String × String)) :
    (runPresents env cfg0 calls).originalDomains.Nodup ∧
    ∀ n, n ∈ (runPresents env cfg0 calls).originalDomains ↔
      ((runPresents env cfg0 calls).domains.lookup n).isSome := by
  suffices h : (runPresents env cfg0 calls).originalDomains
      = (runPresents env cfg0 calls).domains.map Prod.fst ∧
      (runPresents env cfg0 calls).originalDomains.Nodup by
    rcases h with ⟨he, hn⟩
    refine ⟨hn, fun n => ?_⟩
    rw [he]
    exact (lookup_isSome_iff _ _).symm
  have hgen : ∀ (cs : List (String × String)) (st : CMState),
      st.originalDomains = st.domains.map Prod.fst →
      st.originalDomains.Nodup →
      (cs.foldl (fun st c => (Present env st c.1 c.2).1) st).originalDomains
        = (cs.foldl (fun st c => (Present env st c.1 c.2).1) st).domains.map Prod.fst ∧
      (cs.foldl (fun st c => (Present env st c.1 c.2).1) st).originalDomains.Nodup := by
    intro cs
    induction cs with
    | nil => intro st ha hb; exact ⟨ha, hb⟩
    | cons c t ih =>
      intro st ha hb
      simp only [List.foldl_cons]
      rcases present_preserves_registry env st c.1 c.2 ha hb with ⟨ha', hb'⟩
      exact ih _ ha' hb'
  exact hgen calls ⟨cfg0, [], []⟩ rfl List.nodup_nil

/-! ## Claim theorems: the Hetzner corrections builder (C10) -/

theorem runCorrections_abort (pre post : List Correction) (c : Correction) (e : String)
    (hpre : ∀ c' ∈ pre, c'.runErr = none ∧ c'.notifyErr = none)
    (hc : c.runErr = some e) :
    runCorrections (pre ++ c :: post)
      = (pre.map (fun c' => Event.runCorrection c'.msg) ++ [Event.runCorrection c.msg],
         some e) := by
  induction pre with
  | nil =>
    simp only [List.nil_append, List.map_nil]
    simp [runCorrections, hc]
  | cons c0 t ih =>
    have h0 := hpre c0 (List.mem_cons_self _ _)
    simp only [List.cons_append, runCorrections, h0.1, h0.2, List.map_cons,
      List.append_eq]
    rw [ih (fun c' hc' => hpre c' (List.mem_cons_of_mem _ hc'))]

theorem filterExec_reports (toReport : List String) :
    (toReport.map (fun m => (⟨m, HCorrAction.message⟩ : HCorrection))).filter
      (fun c => isExecutable c.action) = [] := by
  induction toReport with
  | nil => rfl
  | cons h t ih => simp [List.filter, isExecutable, ih]

theorem filterExec_dels (del : List DiffPair) :
    (del.map (fun m =>
        (⟨m.desc, HCorrAction.deleteRecord m.existing⟩ : HCorrection))).filter
      (fun c => isExecutable c.action)
      = del.map (fun m => ⟨m.desc, HCorrAction.deleteRecord m.existing⟩) := by
  induction del with
  | nil => rfl
  | cons h t ih => simp [List.filter, isExecutable, ih]

theorem executableCorrections_shape (toReport : List String)
    (create del modify : List DiffPair) :
    executableCorrections (getZoneRecordsCorrections toReport create del modify)
      = del.map (fun m => ⟨m.desc, .deleteRecord m.existing⟩)
        ++ (if create = [] then [] else
            [⟨String.intercalate "\n\t"
                ("Batch creation of records:" :: create.map (fun m => m.desc)),
              HCorrAction.bulkCreate (create.map (fun m => m.desired))⟩])
        ++ (if modify = [] then [] else
            [⟨String.intercalate "\n\t"
                ("Batch modification of records:" :: modify.map (fun m => m.desc)),
              HCorrAction.bulkUpdate
                (modify.map (fun m => { m.desired with hid := m.existing.hid }))⟩]) := by
  unfold executableCorrections getZoneRecordsCorrections
  dsimp only
  rw [List.filter_append, List.filter_append, List.filter_append,
    filterExec_reports, filterExec_dels]
  by_cases hc : create = [] <;> by_cases hm : modify = [] <;>
    simp [hc, hm, List.filter, isExecutable, List.length_pos]

/-- C10: the corrections the Hetzner provider returns consist — after the
reconciliation wrapper separates off the report-only messages — of one
deletion correction per deleted record in diff order, then at most one batched
creation correction (present exactly when records are to be created), then at
most one batched modification correction (present exactly when records are to
be modified); and the executor runs corrections in produced order, a failing
correction aborting all that remain after it. -/
theorem hetzner_corrections_order_and_abort
    (toReport : List String) (create del modify : List DiffPair)
    (pre post : List Correction) (c : Correction) (e : String)
    (hpre : ∀ c' ∈ pre, c'.runErr = none ∧ c'.notifyErr = none)
    (hc : c.runErr = some e) :
    executableCorrections (getZoneRecordsCorrections toReport create del modify)
      = del.map (fun m => ⟨m.desc, .deleteRecord m.existing⟩)
        ++ (if create = [] then [] else
            [⟨String.intercalate "\n\t"
                ("Batch creation of records:" :: create.map (fun m => m.desc)),
              HCorrAction.bulkCreate (create.map (fun m => m.desired))⟩])
        ++ (if modify = [] then [] else
            [⟨String.intercalate "\n\t"
                ("Batch modification of records:" :: modify.map (fun m => m.desc)),
              HCorrAction.bulkUpdate
                (modify.map (fun m => { m.desired with hid := m.existing.hid }))⟩]) ∧
    runCorrections (pre ++ c :: post)
      = (pre.map (fun c' => Event.runCorrection c'.msg) ++ [Event.runCorrection c.msg],
         some e) :=
  ⟨executableCorrections_shape toReport create del modify,
   runCorrections_abort pre post c e hpre hc⟩

/-- Witness for C10: one report, one deletion, one creation, no modification;
an executor run whose second correction fails, so the third is never run. -/
theorem hetzner_corrections_order_and_abort_witness :
    ((∀ c' ∈ [corrOkW], c'.runErr = none ∧ c'.notifyErr = none) ∧
      corrBadW.runErr = some "api failure") ∧
    (executableCorrections (getZoneRecordsCorrections ["report"] [dpCreateW] [dpDelW] [])
        = [dpDelW].map (fun m => ⟨m.desc, .deleteRecord m.existing⟩)
          ++ (if [dpCreateW] = ([] : List DiffPair) then [] else
              [⟨String.intercalate "\n\t"
                  ("Batch creation of records:" :: [dpCreateW].map (fun m => m.desc)),
                HCorrAction.bulkCreate ([dpCreateW].map (fun m => m.desired))⟩])
          ++ (if ([] : List DiffPair) = [] then [] else
              [⟨String.intercalate "\n\t"
                  ("Batch modification of records:"
                    :: ([] : List DiffPair).map (fun m => m.desc)),
                HCorrAction.bulkUpdate
                  (([] : List DiffPair).map
                    (fun m => { m.desired with hid := m.existing.hid }))⟩]) ∧
      runCorrections ([corrOkW] ++ corrBadW :: [corrPostW])
        = ([corrOkW].map (fun c' => Event.runCorrection c'.msg)
            ++ [Event.runCorrection corrBadW.msg], some "api failure")) :=
  ⟨⟨by decide, rfl⟩,
   hetzner_corrections_order_and_abort ["report"] [dpCreateW] [dpDelW] []
     [corrOkW] [corrPostW] corrBadW "api failure" (by decide) rfl⟩
